import Mathlib

/-!
Verification development for the arbitrary-precision integer calculator.

The definitions below are a shallow embedding of the repository's Rust
sources (`src/bigint.rs` and `src/lib.rs`):

  * `LargeInt` mirrors `struct LargeInt { sign: i8, digits: Vec<u8> }`;
    the `i8` sign becomes `Int`, the `u8` digit vector becomes `List Nat`
    (digits stored least-significant first, as in the source).
  * Fallible code (Rust `panic!`, and the `while` loops whose termination
    is not structural) is embedded with `Option`: `none` models a panic,
    and the loops take an explicit fuel argument whose sufficiency is
    proved below, so that `none` is never returned for fuel reasons on
    well-formed inputs.
  * Rayon's data-parallel iteration (`par_iter` in `multiply` and
    `factorial`) is embedded by its sequential semantics, which is the
    scheduling-independent value the spec requires.
-/

/-- Numeric value of a least-significant-first digit list. -/
def digitsVal : List Nat → Nat
  | [] => 0
  | d :: ds => d + 10 * digitsVal ds

/-- Numeric value of a most-significant-first digit list. -/
def valueMSB : List Nat → Nat
  | [] => 0
  | d :: ds => d * 10 ^ ds.length + valueMSB ds

/-- Embeds the `while digits.len() > 1 && digits.last() == Some(&0)` pop loop of
`LargeInt::new`, acting on the reversed (most-significant-first) list: drop
leading zeros while more than one digit remains. -/
def dropLeadZeros : List Nat → List Nat
  | [] => []
  | [d] => [d]
  | 0 :: d :: ds => dropLeadZeros (d :: ds)
  | l => l

/-- Trailing (most-significant) zero removal on a least-significant-first list. -/
def stripTrail (l : List Nat) : List Nat := (dropLeadZeros l.reverse).reverse

/-- Embeds `struct LargeInt` from src/bigint.rs: `sign` is 1 or -1, `digits`
are decimal digits stored in reverse (least-significant-first) order. -/
structure LargeInt where
  sign : Int
  digits : List Nat
  deriving DecidableEq, Repr

/-- Embeds `LargeInt::new`: normalize by removing trailing zero digits
(keeping at least one digit), and force the sign positive when the result
is the single digit zero. -/
def LargeInt.new (sign : Int) (digits : List Nat) : LargeInt :=
  let ds := stripTrail digits
  if ds = [0] then ⟨1, ds⟩ else ⟨sign, ds⟩

/-- Embeds `LargeInt::zero`. -/
def LargeInt.zero : LargeInt := LargeInt.new 1 [0]

/-- Embeds `LargeInt::one`. -/
def LargeInt.one : LargeInt := LargeInt.new 1 [1]

/-- Embeds `str::trim` as used by `LargeInt::parse`: remove leading and
trailing whitespace characters. -/
def trimChars (cs : List Char) : List Char :=
  ((cs.dropWhile Char.isWhitespace).reverse.dropWhile Char.isWhitespace).reverse

/-- Embeds `LargeInt::parse`: the sign is negative iff the trimmed input
starts with a minus character; decimal digits are kept (all other
characters are discarded), converted to numeric values, and reversed into
least-significant-first order; the result goes through `LargeInt::new`. -/
def LargeInt.parse (cs : List Char) : LargeInt :=
  let t := trimChars cs
  let sign : Int := if t.head? = some '-' then -1 else 1
  let digits := ((t.filter Char.isDigit).map (fun c => c.toNat - '0'.toNat)).reverse
  LargeInt.new sign digits

/-- Embeds `LargeInt::to_string`: digits rendered most-significant-first as
characters, with a leading minus when the sign is negative. -/
def LargeInt.to_string (x : LargeInt) : List Char :=
  let s := x.digits.reverse.map (fun d => Char.ofNat (d + '0'.toNat))
  if x.sign = -1 then '-' :: s else s

/-- Embeds the digit-by-digit scan of `LargeInt::compare_abs` over the two
reversed (most-significant-first) digit lists, zipped: the first differing
pair decides. -/
def cmpRev : List (Nat × Nat) → Ordering
  | [] => Ordering.eq
  | (a, b) :: rest => if a ≠ b then compare a b else cmpRev rest

/-- Embeds `LargeInt::compare_abs`: compare digit counts first; if equal,
compare digit-by-digit from the most significant end. -/
def LargeInt.compare_abs (x y : LargeInt) : Ordering :=
  if x.digits.length ≠ y.digits.length then compare x.digits.length y.digits.length
  else cmpRev (x.digits.reverse.zip y.digits.reverse)

/-- Embeds `LargeInt::pad_equal_lengths`: extend the shorter digit list with
zeros at the most-significant end. -/
def LargeInt.pad_equal_lengths (a b : LargeInt) : List Nat × List Nat :=
  let m := max a.digits.length b.digits.length
  (a.digits ++ List.replicate (m - a.digits.length) 0,
   b.digits ++ List.replicate (m - b.digits.length) 0)

/-- Embeds the carry loop of `LargeInt::add_same_sign` over the zipped padded
digit lists, with a final carry appended when positive. -/
def addLoop : List (Nat × Nat) → Nat → List Nat
  | [], c => if c > 0 then [c] else []
  | (a, b) :: rest, c => (a + b + c) % 10 :: addLoop rest ((a + b + c) / 10)

/-- Embeds `LargeInt::add_same_sign`. -/
def LargeInt.add_same_sign (x y : LargeInt) : LargeInt :=
  let p := LargeInt.pad_equal_lengths x y
  LargeInt.new x.sign (addLoop (p.1.zip p.2) 0)

/-- Embeds the borrow loop of `LargeInt::subtract_same_sign` over the zipped
padded digit lists (`diff` is computed in `i16` in the source, here in `Int`). -/
def subLoop : List (Nat × Nat) → Nat → List Nat
  | [], _ => []
  | (a, b) :: rest, br =>
    if (a : Int) - b - br < 0 then
      ((a : Int) - b - br + 10).toNat :: subLoop rest 1
    else
      ((a : Int) - b - br).toNat :: subLoop rest 0

/-- Embeds `LargeInt::subtract_same_sign`. -/
def LargeInt.subtract_same_sign (x y : LargeInt) : LargeInt :=
  let p := LargeInt.pad_equal_lengths x y
  LargeInt.new x.sign (subLoop (p.1.zip p.2) 0)

/-- Embeds `LargeInt::subtract_abs`: equal magnitudes give zero; otherwise the
smaller magnitude is subtracted from the larger, negating the sign when the
operands were swapped. -/
def LargeInt.subtract_abs (x y : LargeInt) : LargeInt :=
  match x.compare_abs y with
  | Ordering.eq => LargeInt.zero
  | Ordering.gt => x.subtract_same_sign y
  | Ordering.lt =>
    let r := y.subtract_same_sign x
    ⟨-r.sign, r.digits⟩

/-- Embeds `LargeInt::add` with its four-way sign dispatch. Note that the
`(-1, 1)` arm of the source assigns the constant `-1` to the result sign
(`result.sign = -1;`), which this embedding reproduces faithfully. The final
arm embeds the source's `unreachable!()`; it cannot be hit when the signs
are 1 or -1. -/
def LargeInt.add (x y : LargeInt) : LargeInt :=
  if x.sign = 1 ∧ y.sign = 1 then x.add_same_sign y
  else if x.sign = -1 ∧ y.sign = -1 then
    let r := x.add_same_sign y
    ⟨-1, r.digits⟩
  else if x.sign = 1 ∧ y.sign = -1 then x.subtract_abs y
  else if x.sign = -1 ∧ y.sign = 1 then
    let r := y.subtract_abs x
    ⟨-1, r.digits⟩
  else LargeInt.zero

/-- Embeds `LargeInt::subtract` with its four-way sign dispatch (the final
arm embeds `unreachable!()`). -/
def LargeInt.subtract (x y : LargeInt) : LargeInt :=
  if x.sign = 1 ∧ y.sign = 1 then x.subtract_abs y
  else if x.sign = -1 ∧ y.sign = -1 then
    let r := y.subtract_abs x
    ⟨-r.sign, r.digits⟩
  else if x.sign = 1 ∧ y.sign = -1 then x.add_same_sign y
  else if x.sign = -1 ∧ y.sign = 1 then
    let r := x.add_same_sign y
    ⟨-1, r.digits⟩
  else LargeInt.zero

/-- Embeds `LargeInt::is_zero`: digit list of length one whose only digit is
zero (`digits.getD 0 1` embeds `digits[0]`, guarded by the length check). -/
def LargeInt.is_zero (x : LargeInt) : Bool :=
  x.digits.length == 1 && x.digits.getD 0 1 == 0

/-- Modelled from the spec: `LargeInt::normalize` is called from `multiply`
and `divide_and_modulo` in src/lib.rs but its definition is missing from the
sources under src/. The spec's glossary defines normalization as "removal of
redundant trailing (most-significant) zero digits, and canonicalizing zero's
sign to positive", which is exactly the normalization performed by
`LargeInt::new`. -/
def LargeInt.normalize (x : LargeInt) : LargeInt := LargeInt.new x.sign x.digits

/-- Embeds the inner `j` loop of one `i`-indexed pass of `multiply`
(src/lib.rs): walk the digits of `b` against the accumulator suffix starting
at position `i`, writing `temp % 10` and carrying `temp / 10`; after `b` is
exhausted, the final carry is added to the cell at offset `len(b)`. The `[]`
accumulator cases are unreachable because the accumulator has length
`len(a) + len(b)`. -/
def rowLoop (da : Nat) : List Nat → List Nat → Nat → List Nat
  | [], acc, c =>
    match acc with
    | [] => []
    | x :: rest => (x + c) :: rest
  | b :: bs, acc, c =>
    match acc with
    | [] => []
    | x :: rest =>
      let t := x + da * b + c
      t % 10 :: rowLoop da bs rest (t / 10)

/-- Embeds the outer `i` loop of `multiply`: one `rowLoop` pass per digit of
`a`, each writing one position further into the accumulator (sequential
semantics of the `par_iter` fan-out). -/
def mulRows (bs : List Nat) : List Nat → List Nat → List Nat
  | [], acc => acc
  | da :: das, acc =>
    match rowLoop da bs acc 0 with
    | [] => []
    | x :: rest => x :: mulRows bs das rest

/-- Embeds `multiply` from src/lib.rs: grid multiplication into a zero buffer
of length `len(a) + len(b)`, then `LargeInt::new` with the product of the
signs, then `normalize`. -/
def multiply (a b : LargeInt) : LargeInt :=
  let result := mulRows b.digits a.digits
    (List.replicate (a.digits.length + b.digits.length) 0)
  (LargeInt.new (a.sign * b.sign) result).normalize

/-- Embeds the `while remainder.compare_abs(b) != Ordering::Less` loop of
`divide_and_modulo`: repeatedly subtract `b` from the remainder, counting the
subtractions. The source loop is unbounded; here it carries fuel, and `none`
(never reachable with the fuel supplied below) models non-termination. -/
def divInner (b : LargeInt) : Nat → LargeInt → Option (Nat × LargeInt)
  | 0, _ => none
  | fuel + 1, rem =>
    if rem.compare_abs b ≠ Ordering.lt then
      match divInner b fuel (rem.subtract_same_sign b) with
      | none => none
      | some (c, r) => some (c + 1, r)
    else some (0, rem)

/-- Embeds one iteration of the digit loop of `divide_and_modulo`: prepend
the digit at the least-significant position (`remainder.digits.insert(0, digit)`),
renormalize, then run the repeated-subtraction loop. The fuel
`digitsVal rem'.digits + 1` strictly exceeds the number of subtractions. -/
def divDigitStep (b : LargeInt) (rem : LargeInt) (d : Nat) : Option (Nat × LargeInt) :=
  let rem' := LargeInt.normalize ⟨rem.sign, d :: rem.digits⟩
  divInner b (digitsVal rem'.digits + 1) rem'

/-- Embeds the `for &digit in a.digits.iter().rev()` loop of
`divide_and_modulo`, collecting the per-digit counts most-significant-first. -/
def divLoop (b : LargeInt) : List Nat → LargeInt → Option (List Nat × LargeInt)
  | [], rem => some ([], rem)
  | d :: ds, rem =>
    match divDigitStep b rem d with
    | none => none
    | some (c, rem') =>
      match divLoop b ds rem' with
      | none => none
      | some (qs, remF) => some (c :: qs, remF)

/-- Embeds `divide_and_modulo` from src/lib.rs: `none` models the
`panic!("Division by zero is not allowed!")` on a zero divisor; otherwise
long division by repeated magnitude subtraction, the quotient digits reversed
into least-significant-first order and signed with the product of the input
signs. -/
def divide_and_modulo (a b : LargeInt) : Option (LargeInt × LargeInt) :=
  if b.is_zero then none
  else
    match divLoop b a.digits.reverse LargeInt.zero with
    | none => none
    | some (qs, rem) => some (LargeInt.new (a.sign * b.sign) qs.reverse, rem)

/-- Embeds the `while !exp.is_zero()` loop of `exponentiate` (src/lib.rs)
with fuel: when the least-significant exponent digit (`exp.digits[0]`,
embedded as `headD 0`; the digit list is non-empty in all reachable states)
is odd, multiply the accumulator by the base; square the base; halve the
exponent through `divide_and_modulo`. -/
def expLoop : Nat → LargeInt → LargeInt → LargeInt → Option LargeInt
  | 0, result, _, exp => if exp.is_zero then some result else none
  | fuel + 1, result, base, exp =>
    if exp.is_zero then some result
    else
      let result' := if exp.digits.headD 0 % 2 = 1 then multiply result base else result
      match divide_and_modulo exp (LargeInt.new 1 [2]) with
      | none => none
      | some (q, _) => expLoop fuel result' (multiply base base) q

/-- Embeds `exponentiate` from src/lib.rs: return one on a zero exponent,
otherwise binary exponentiation. The fuel `digitsVal exp.digits + 1` strictly
exceeds the number of halving steps. -/
def exponentiate (base exp : LargeInt) : Option LargeInt :=
  if exp.is_zero then some LargeInt.one
  else expLoop (digitsVal exp.digits + 1) LargeInt.one base exp

/-- Decimal digits of a machine natural, least-significant first, by fuel
recursion (`natDigits n` uses fuel `n`, which suffices since `n / 10 < n`). -/
def natDigitsAux : Nat → Nat → List Nat
  | _, 0 => []
  | 0, _ + 1 => []
  | fuel + 1, n + 1 => (n + 1) % 10 :: natDigitsAux fuel ((n + 1) / 10)

/-- Decimal digits of a machine natural, least-significant first. -/
def natDigits (n : Nat) : List Nat := natDigitsAux n n

/-- Embeds `LargeInt::parse(&x.to_string())` for a machine-sized count `x`,
as used by `factorial`: the decimal representation of `x` has no sign and no
non-digit characters, so parsing it yields `LargeInt::new` of its digit list
in least-significant-first order. -/
def natToLarge (x : Nat) : LargeInt :=
  LargeInt.new 1 (if x = 0 then [0] else natDigits x)

/-- Embeds `factorial` from src/lib.rs: one for zero, `none` models the
`panic!` for a negative argument; otherwise the list `[1, ..., n]` built via
`LargeInt::parse(&x.to_string())` is reduced by `multiply` with identity one
(sequential semantics of the Rayon `reduce`). The source converts `n` to
`usize` before building the range; the embedding uses the exact numeric value
`digitsVal n.digits`, which agrees with the source whenever `n` is
representable as a machine-sized count. -/
def factorial (n : LargeInt) : Option LargeInt :=
  if n.is_zero then some LargeInt.one
  else if n.sign = -1 then none
  else
    some (((List.range' 1 (digitsVal n.digits)).map natToLarge).foldl
      (fun acc x => multiply acc x) LargeInt.one)

/-- Integer value denoted by a `LargeInt`. -/
def value (x : LargeInt) : Int := x.sign * (digitsVal x.digits : Int)

/-- Magnitude (absolute value) of a `LargeInt`, per the spec's glossary. -/
def magnitude (x : LargeInt) : LargeInt := ⟨1, x.digits⟩

/-- The representation invariant exactly as the spec states it: the digit
list is non-empty, has no trailing (most-significant) zero except when the
value is exactly zero with digit list `[0]`, and zero is positively signed. -/
def ReprInvariant (x : LargeInt) : Prop :=
  x.digits ≠ [] ∧ (x.digits.getLast? = some 0 → x.digits = [0]) ∧
    (x.digits = [0] → x.sign = 1)

/-- A well-formed `LargeInt` per the spec's data model: sign is 1 or -1,
digits are base-10 digit values, and the representation invariant holds. -/
def ValidRep (x : LargeInt) : Prop :=
  (x.sign = 1 ∨ x.sign = -1) ∧ (∀ d ∈ x.digits, d < 10) ∧ ReprInvariant x

instance (x : LargeInt) : Decidable (ReprInvariant x) := by
  unfold ReprInvariant; infer_instance

instance (x : LargeInt) : Decidable (ValidRep x) := by
  unfold ValidRep; infer_instance

/-- Digit lists with no trailing (most-significant) zero except `[0]`. -/
def NormDigits (l : List Nat) : Prop := l ≠ [] ∧ (l.getLast? = some 0 → l = [0])

theorem digitsVal_append (l m : List Nat) :
    digitsVal (l ++ m) = digitsVal l + 10 ^ l.length * digitsVal m := by
  induction l with
  | nil => simp [digitsVal]
  | cons d ds ih => simp [digitsVal, ih, List.length_cons, pow_succ]; ring

theorem digitsVal_replicate_zero (k : Nat) : digitsVal (List.replicate k 0) = 0 := by
  induction k with
  | zero => rfl
  | succ k ih => simp [List.replicate, digitsVal, ih]

theorem digitsVal_lt (l : List Nat) (h : ∀ d ∈ l, d < 10) :
    digitsVal l < 10 ^ l.length := by
  induction l with
  | nil => simp [digitsVal]
  | cons d ds ih =>
    have hd : d < 10 := h d (List.mem_cons_self d ds)
    have hds : digitsVal ds < 10 ^ ds.length := ih fun x hx => h x (List.mem_cons_of_mem d hx)
    simp only [digitsVal, List.length_cons, pow_succ]
    calc d + 10 * digitsVal ds ≤ 9 + 10 * digitsVal ds := by omega
    _ < 10 * (digitsVal ds + 1) := by omega
    _ ≤ 10 * 10 ^ ds.length := by omega
    _ = 10 ^ ds.length * 10 := by ring

theorem valueMSB_append_single (r : List Nat) (d : Nat) :
    valueMSB (r ++ [d]) = 10 * valueMSB r + d := by
  induction r with
  | nil => simp [valueMSB]
  | cons a as ih => simp [valueMSB, ih, List.length_append, pow_succ]; ring

theorem digitsVal_eq_valueMSB_reverse (l : List Nat) :
    digitsVal l = valueMSB l.reverse := by
  induction l with
  | nil => rfl
  | cons d ds ih =>
    simp only [digitsVal, List.reverse_cons, valueMSB_append_single, ih]; ring

theorem valueMSB_lt (r : List Nat) (h : ∀ d ∈ r, d < 10) :
    valueMSB r < 10 ^ r.length := by
  induction r with
  | nil => simp [valueMSB]
  | cons d ds ih =>
    have hd : d < 10 := h d (List.mem_cons_self d ds)
    have hds : valueMSB ds < 10 ^ ds.length := ih fun x hx => h x (List.mem_cons_of_mem d hx)
    simp only [valueMSB, List.length_cons, pow_succ]
    have h1 : d * 10 ^ ds.length ≤ 9 * 10 ^ ds.length := by
      exact Nat.mul_le_mul_right _ (by omega)
    omega

theorem digitsVal_ge_of_last (l : List Nat) (d : Nat) (hl : l.getLast? = some d)
    (hd : d ≠ 0) : 10 ^ (l.length - 1) ≤ digitsVal l := by
  have hne : l ≠ [] := by intro h; subst h; simp at hl
  have hdec : l.dropLast ++ [l.getLast hne] = l := List.dropLast_append_getLast hne
  have hlast : l.getLast hne = d := by
    have := List.getLast?_eq_getLast l hne
    rw [this] at hl; exact Option.some_injective _ hl
  calc 10 ^ (l.length - 1) = 10 ^ l.dropLast.length * 1 := by
        simp [List.length_dropLast]
  _ ≤ 10 ^ l.dropLast.length * digitsVal [l.getLast hne] := by
        apply Nat.mul_le_mul_left
        simp [digitsVal, hlast]; omega
  _ ≤ digitsVal l.dropLast + 10 ^ l.dropLast.length * digitsVal [l.getLast hne] := by omega
  _ = digitsVal l := by rw [← digitsVal_append, hdec]

theorem valueMSB_dropLeadZeros (r : List Nat) :
    valueMSB (dropLeadZeros r) = valueMSB r := by
  induction r with
  | nil => rfl
  | cons d ds ih =>
    cases ds with
    | nil => simp [dropLeadZeros]
    | cons e es =>
      by_cases hd : d = 0
      · subst hd
        simp only [dropLeadZeros]
        rw [ih]
        simp [valueMSB]
      · cases d with
        | zero => exact absurd rfl hd
        | succ n => simp [dropLeadZeros]

theorem dropLeadZeros_ne_nil (r : List Nat) (h : r ≠ []) : dropLeadZeros r ≠ [] := by
  induction r with
  | nil => exact absurd rfl h
  | cons d ds ih =>
    cases ds with
    | nil => simp [dropLeadZeros]
    | cons e es =>
      cases d with
      | zero => exact ih (by simp)
      | succ n => simp [dropLeadZeros]

theorem dropLeadZeros_head_zero (r : List Nat) (t : List Nat)
    (h : dropLeadZeros r = 0 :: t) : t = [] := by
  induction r with
  | nil => simp [dropLeadZeros] at h
  | cons d ds ih =>
    cases ds with
    | nil =>
      simp only [dropLeadZeros] at h
      cases h; rfl
    | cons e es =>
      cases d with
      | zero => exact ih h
      | succ n => simp [dropLeadZeros] at h

theorem dropLeadZeros_mem (r : List Nat) (d : Nat) (h : d ∈ dropLeadZeros r) :
    d ∈ r := by
  induction r with
  | nil => simp [dropLeadZeros] at h
  | cons a ds ih =>
    cases ds with
    | nil => simpa [dropLeadZeros] using h
    | cons e es =>
      cases a with
      | zero => exact List.mem_cons_of_mem _ (ih h)
      | succ n => simpa [dropLeadZeros] using h

theorem dropLeadZeros_fix (r : List Nat) (h : ∀ d t, r ≠ 0 :: d :: t) :
    dropLeadZeros r = r := by
  cases r with
  | nil => rfl
  | cons a ds =>
    cases ds with
    | nil => simp [dropLeadZeros]
    | cons e es =>
      cases a with
      | zero => exact absurd rfl (h e es)
      | succ n => simp [dropLeadZeros]

theorem digitsVal_stripTrail (l : List Nat) :
    digitsVal (stripTrail l) = digitsVal l := by
  rw [stripTrail, digitsVal_eq_valueMSB_reverse, List.reverse_reverse,
    valueMSB_dropLeadZeros, ← digitsVal_eq_valueMSB_reverse]

theorem stripTrail_ne_nil (l : List Nat) (h : l ≠ []) : stripTrail l ≠ [] := by
  rw [stripTrail]
  intro hc
  have := dropLeadZeros_ne_nil l.reverse (by simpa using h)
  exact this (by simpa using hc)

theorem stripTrail_mem (l : List Nat) (d : Nat) (h : d ∈ stripTrail l) : d ∈ l := by
  rw [stripTrail, List.mem_reverse] at h
  have := dropLeadZeros_mem l.reverse d h
  simpa using this

theorem stripTrail_norm (l : List Nat) (h : l ≠ []) : NormDigits (stripTrail l) := by
  refine ⟨stripTrail_ne_nil l h, ?_⟩
  intro hlast
  rw [stripTrail] at hlast ⊢
  rw [← List.head?_reverse, List.reverse_reverse] at hlast
  rcases hz : dropLeadZeros l.reverse with _ | ⟨d, t⟩
  · exact absurd hz (dropLeadZeros_ne_nil l.reverse (by simpa using h))
  · rw [hz] at hlast
    simp only [List.head?] at hlast
    have hd0 : d = 0 := by injection hlast
    subst hd0
    have := dropLeadZeros_head_zero l.reverse t hz
    subst this
    simp

theorem stripTrail_fix (l : List Nat) (h : NormDigits l) : stripTrail l = l := by
  obtain ⟨hne, hlast⟩ := h
  rw [stripTrail, dropLeadZeros_fix, List.reverse_reverse]
  intro d t hc
  have h0 : l.getLast? = some 0 := by
    rw [← List.head?_reverse, hc]; rfl
  have hl0 : l = [0] := hlast h0
  rw [hl0] at hc
  simp at hc

theorem stripTrail_append_zero (l : List Nat) (h : NormDigits l) :
    stripTrail (l ++ [0]) = l := by
  have hne : l.reverse ≠ [] := by
    simpa using h.1
  rw [stripTrail, List.reverse_append]
  simp only [List.reverse_singleton, List.singleton_append]
  rcases hr : l.reverse with _ | ⟨d, t⟩
  · exact absurd hr hne
  · show (dropLeadZeros (0 :: d :: t)).reverse = l
    have : dropLeadZeros (0 :: d :: t) = dropLeadZeros (d :: t) := by
      simp [dropLeadZeros]
    rw [this, ← hr, dropLeadZeros_fix, List.reverse_reverse]
    intro e t' hc
    have h0 : l.getLast? = some 0 := by
      rw [← List.head?_reverse, hc]; rfl
    have hl0 : l = [0] := h.2 h0
    rw [hl0] at hc
    simp at hc

theorem new_digits_val (s : Int) (ds : List Nat) :
    digitsVal (LargeInt.new s ds).digits = digitsVal ds := by
  rw [LargeInt.new]
  by_cases h : stripTrail ds = [0] <;> simp [h, ← digitsVal_stripTrail ds]

theorem value_new (s : Int) (ds : List Nat) :
    value (LargeInt.new s ds) = s * digitsVal ds := by
  rw [LargeInt.new]
  by_cases h : stripTrail ds = [0]
  · have hv : digitsVal ds = 0 := by
      rw [← digitsVal_stripTrail, h]; rfl
    simp [h, value, hv, digitsVal]
  · simp [h, value, ← digitsVal_stripTrail ds]

theorem new_digits_sign_irrel (s s' : Int) (ds : List Nat) :
    (LargeInt.new s ds).digits = (LargeInt.new s' ds).digits := by
  rw [LargeInt.new, LargeInt.new]
  by_cases h : stripTrail ds = [0] <;> simp [h]

theorem new_norm (s : Int) (ds : List Nat) (h : ds ≠ []) :
    NormDigits (LargeInt.new s ds).digits := by
  rw [LargeInt.new]
  by_cases hz : stripTrail ds = [0]
  · simp only [hz, if_pos]
    exact ⟨by simp, fun _ => rfl⟩
  · simp only [hz, if_neg, not_false_iff]
    exact stripTrail_norm ds h

theorem new_mem (s : Int) (ds : List Nat) (d : Nat)
    (h : d ∈ (LargeInt.new s ds).digits) : d ∈ ds ∨ d = 0 := by
  rw [LargeInt.new] at h
  by_cases hz : stripTrail ds = [0]
  · simp only [hz, if_pos] at h
    right
    simpa using h
  · simp only [hz, if_neg, not_false_iff] at h
    exact Or.inl (stripTrail_mem ds d h)

theorem new_bounded (s : Int) (ds : List Nat) (h : ∀ d ∈ ds, d < 10) :
    ∀ d ∈ (LargeInt.new s ds).digits, d < 10 := by
  intro d hd
  rcases new_mem s ds d hd with hm | h0
  · exact h d hm
  · omega

theorem new_sign_one (ds : List Nat) : (LargeInt.new 1 ds).sign = 1 := by
  rw [LargeInt.new]
  by_cases h : stripTrail ds = [0] <;> simp [h]

theorem new_sign_cases (s : Int) (ds : List Nat) :
    (LargeInt.new s ds).sign = s ∨
      ((LargeInt.new s ds).sign = 1 ∧ (LargeInt.new s ds).digits = [0]) := by
  rw [LargeInt.new]
  by_cases h : stripTrail ds = [0] <;> simp [h]

theorem new_zero_sign (s : Int) (ds : List Nat)
    (h : (LargeInt.new s ds).digits = [0]) : (LargeInt.new s ds).sign = 1 := by
  rw [LargeInt.new] at h ⊢
  by_cases hz : stripTrail ds = [0]
  · simp [hz]
  · simp only [hz, if_neg, not_false_iff] at h

theorem new_valid (s : Int) (ds : List Nat) (hs : s = 1 ∨ s = -1) (hne : ds ≠ [])
    (hb : ∀ d ∈ ds, d < 10) : ValidRep (LargeInt.new s ds) := by
  have hn := new_norm s ds hne
  refine ⟨?_, new_bounded s ds hb, hn.1, hn.2, new_zero_sign s ds⟩
  rcases new_sign_cases s ds with h | h
  · rw [h]; exact hs
  · rw [h.1]; exact Or.inl rfl

theorem new_of_valid (x : LargeInt) (h : ValidRep x) :
    LargeInt.new x.sign x.digits = x := by
  obtain ⟨hs, hb, hne, hlast, hzs⟩ := h
  have hfix : stripTrail x.digits = x.digits := stripTrail_fix _ ⟨hne, hlast⟩
  cases x with
  | mk s d =>
    simp only at hfix hzs hne hlast hs
    by_cases hz : d = [0]
    · subst hz
      have hs1 : s = 1 := hzs rfl
      subst hs1
      decide
    · simp [LargeInt.new, hfix, hz]

theorem normalize_new (s : Int) (ds : List Nat) :
    (LargeInt.new s ds).normalize = LargeInt.new s ds := by
  by_cases h : stripTrail ds = [0]
  · have h1 : LargeInt.new s ds = ⟨1, [0]⟩ := by simp [LargeInt.new, h]
    rw [h1]
    decide
  · have h1 : LargeInt.new s ds = ⟨s, stripTrail ds⟩ := by simp [LargeInt.new, h]
    have hfix : stripTrail (stripTrail ds) = stripTrail ds := by
      by_cases hne : ds = []
      · subst hne; rfl
      · exact stripTrail_fix _ (stripTrail_norm ds hne)
    rw [h1, LargeInt.normalize]
    simp [LargeInt.new, hfix, h]

theorem nat_compare_add_left (c x y : Nat) : compare (c + x) (c + y) = compare x y := by
  rcases lt_trichotomy x y with h | h | h
  · rw [Nat.compare_eq_lt.2 h, Nat.compare_eq_lt.2 (by omega)]
  · subst h
    rw [Nat.compare_eq_eq.2 rfl, Nat.compare_eq_eq.2 rfl]
  · rw [Nat.compare_eq_gt.2 h, Nat.compare_eq_gt.2 (by omega)]

theorem norm_last_ne_zero (l : List Nat) (h : NormDigits l) (hne : l ≠ [0]) :
    ∃ d, l.getLast? = some d ∧ d ≠ 0 := by
  obtain ⟨h1, h2⟩ := h
  refine ⟨l.getLast h1, List.getLast?_eq_getLast l h1, ?_⟩
  intro h0
  exact hne (h2 (by rw [List.getLast?_eq_getLast l h1, h0]))

theorem digitsVal_pos (l : List Nat) (h : NormDigits l) (hne : l ≠ [0]) :
    1 ≤ digitsVal l := by
  obtain ⟨d, hd, hd0⟩ := norm_last_ne_zero l h hne
  have h1 := digitsVal_ge_of_last l d hd hd0
  have h2 : 0 < 10 ^ (l.length - 1) := pow_pos (by omega) _
  omega

theorem cmpRev_spec (r : List Nat) : ∀ (s : List Nat), r.length = s.length →
    (∀ d ∈ r, d < 10) → (∀ d ∈ s, d < 10) →
    cmpRev (r.zip s) = compare (valueMSB r) (valueMSB s) := by
  induction r with
  | nil =>
    intro s hlen _ _
    have hs : s = [] := by
      cases s with
      | nil => rfl
      | cons b bs => simp at hlen
    subst hs
    rw [show cmpRev ([].zip ([] : List Nat)) = Ordering.eq from rfl,
      (Nat.compare_eq_eq.2 rfl)]
  | cons a as ih =>
    intro s hlen hbr hbs
    cases s with
    | nil => simp at hlen
    | cons b bs =>
      have hlen' : as.length = bs.length := by simpa using hlen
      rw [List.zip_cons_cons]
      show (if a ≠ b then compare a b else cmpRev (as.zip bs)) = _
      have hvas : valueMSB as < 10 ^ as.length :=
        valueMSB_lt as fun x hx => hbr x (List.mem_cons_of_mem a hx)
      have hvbs : valueMSB bs < 10 ^ bs.length :=
        valueMSB_lt bs fun x hx => hbs x (List.mem_cons_of_mem b hx)
      by_cases hab : a = b
      · subst hab
        simp only [ne_eq, not_true_eq_false, if_false, ite_false]
        rw [ih bs hlen' (fun x hx => hbr x (List.mem_cons_of_mem a hx))
          (fun x hx => hbs x (List.mem_cons_of_mem a hx))]
        show _ = compare (a * 10 ^ as.length + valueMSB as)
          (a * 10 ^ bs.length + valueMSB bs)
        rw [hlen', nat_compare_add_left]
      · simp only [ne_eq, hab, not_false_iff, if_true, ite_true]
        show compare a b = compare (a * 10 ^ as.length + valueMSB as)
          (b * 10 ^ bs.length + valueMSB bs)
        rcases Nat.lt_or_ge a b with h | h
        · rw [Nat.compare_eq_lt.2 h, Nat.compare_eq_lt.2 ?_]
          calc a * 10 ^ as.length + valueMSB as
              < a * 10 ^ as.length + 10 ^ as.length := by omega
          _ = (a + 1) * 10 ^ as.length := by ring
          _ ≤ b * 10 ^ as.length := Nat.mul_le_mul_right _ (by omega)
          _ = b * 10 ^ bs.length := by rw [hlen']
          _ ≤ b * 10 ^ bs.length + valueMSB bs := Nat.le_add_right _ _
        · have hba : b < a := by omega
          rw [Nat.compare_eq_gt.2 hba, Nat.compare_eq_gt.2 ?_]
          calc b * 10 ^ bs.length + valueMSB bs
              < b * 10 ^ bs.length + 10 ^ bs.length := by omega
          _ = (b + 1) * 10 ^ bs.length := by ring
          _ ≤ a * 10 ^ bs.length := Nat.mul_le_mul_right _ (by omega)
          _ = a * 10 ^ as.length := by rw [hlen']
          _ ≤ a * 10 ^ as.length + valueMSB as := Nat.le_add_right _ _

theorem compare_abs_spec (x y : LargeInt) (hx : NormDigits x.digits)
    (hbx : ∀ d ∈ x.digits, d < 10) (hy : NormDigits y.digits)
    (hby : ∀ d ∈ y.digits, d < 10) :
    x.compare_abs y = compare (digitsVal x.digits) (digitsVal y.digits) := by
  rw [LargeInt.compare_abs]
  by_cases hlen : x.digits.length ≠ y.digits.length
  · rw [if_pos hlen]
    have hlx : 1 ≤ x.digits.length := List.length_pos.2 hx.1
    have hly : 1 ≤ y.digits.length := List.length_pos.2 hy.1
    rcases Nat.lt_or_ge x.digits.length y.digits.length with h | h
    · have hy0 : y.digits ≠ [0] := by
        intro hc
        have hl1 : y.digits.length = 1 := by rw [hc]; rfl
        omega
      obtain ⟨d, hd, hd0⟩ := norm_last_ne_zero y.digits hy hy0
      have hge := digitsVal_ge_of_last y.digits d hd hd0
      have hltx := digitsVal_lt x.digits hbx
      have hpow : 10 ^ x.digits.length ≤ 10 ^ (y.digits.length - 1) :=
        Nat.pow_le_pow_right (by omega) (by omega)
      rw [Nat.compare_eq_lt.2 h, Nat.compare_eq_lt.2 (by omega)]
    · have h' : y.digits.length < x.digits.length := by omega
      have hx0 : x.digits ≠ [0] := by
        intro hc
        have hl1 : x.digits.length = 1 := by rw [hc]; rfl
        omega
      obtain ⟨d, hd, hd0⟩ := norm_last_ne_zero x.digits hx hx0
      have hge := digitsVal_ge_of_last x.digits d hd hd0
      have hlty := digitsVal_lt y.digits hby
      have hpow : 10 ^ y.digits.length ≤ 10 ^ (x.digits.length - 1) :=
        Nat.pow_le_pow_right (by omega) (by omega)
      rw [Nat.compare_eq_gt.2 h', Nat.compare_eq_gt.2 (by omega)]
  · rw [if_neg hlen]
    have hlen' : x.digits.reverse.length = y.digits.reverse.length := by
      simpa using (by omega : x.digits.length = y.digits.length)
    rw [cmpRev_spec x.digits.reverse y.digits.reverse hlen'
      (fun d hd => hbx d (by simpa using hd))
      (fun d hd => hby d (by simpa using hd)),
      ← digitsVal_eq_valueMSB_reverse, ← digitsVal_eq_valueMSB_reverse]

theorem pad_fst_length (a b : LargeInt) :
    (LargeInt.pad_equal_lengths a b).1.length = max a.digits.length b.digits.length := by
  simp only [LargeInt.pad_equal_lengths, List.length_append, List.length_replicate]
  omega

theorem pad_snd_length (a b : LargeInt) :
    (LargeInt.pad_equal_lengths a b).2.length = max a.digits.length b.digits.length := by
  simp only [LargeInt.pad_equal_lengths, List.length_append, List.length_replicate]
  omega

theorem pad_fst_val (a b : LargeInt) :
    digitsVal (LargeInt.pad_equal_lengths a b).1 = digitsVal a.digits := by
  simp [LargeInt.pad_equal_lengths, digitsVal_append, digitsVal_replicate_zero]

theorem pad_snd_val (a b : LargeInt) :
    digitsVal (LargeInt.pad_equal_lengths a b).2 = digitsVal b.digits := by
  simp [LargeInt.pad_equal_lengths, digitsVal_append, digitsVal_replicate_zero]

theorem pad_fst_bounded (a b : LargeInt) (h : ∀ d ∈ a.digits, d < 10) :
    ∀ d ∈ (LargeInt.pad_equal_lengths a b).1, d < 10 := by
  intro d hd
  simp only [LargeInt.pad_equal_lengths, List.mem_append] at hd
  rcases hd with hd | hd
  · exact h d hd
  · have := List.eq_of_mem_replicate hd
    omega

theorem pad_snd_bounded (a b : LargeInt) (h : ∀ d ∈ b.digits, d < 10) :
    ∀ d ∈ (LargeInt.pad_equal_lengths a b).2, d < 10 := by
  intro d hd
  simp only [LargeInt.pad_equal_lengths, List.mem_append] at hd
  rcases hd with hd | hd
  · exact h d hd
  · have := List.eq_of_mem_replicate hd
    omega

theorem addLoop_val (ap : List Nat) : ∀ (bp : List Nat) (c : Nat),
    ap.length = bp.length →
    digitsVal (addLoop (ap.zip bp) c) = digitsVal ap + digitsVal bp + c := by
  induction ap with
  | nil =>
    intro bp c hlen
    have hbp : bp = [] := by
      cases bp with
      | nil => rfl
      | cons b bs => simp at hlen
    subst hbp
    show digitsVal (if c > 0 then [c] else []) = 0 + 0 + c
    by_cases hc : c > 0
    · simp [hc, digitsVal]
    · have : c = 0 := by omega
      simp [this, digitsVal]
  | cons a as ih =>
    intro bp c hlen
    cases bp with
    | nil => simp at hlen
    | cons b bs =>
      have hlen' : as.length = bs.length := by simpa using hlen
      rw [List.zip_cons_cons]
      show digitsVal ((a + b + c) % 10 :: addLoop (as.zip bs) ((a + b + c) / 10)) = _
      rw [digitsVal, ih bs _ hlen', digitsVal, digitsVal]
      omega

theorem add_same_sign_value (x y : LargeInt) :
    value (x.add_same_sign y) =
      x.sign * ((digitsVal x.digits + digitsVal y.digits : Nat) : Int) := by
  rw [LargeInt.add_same_sign, value_new, addLoop_val _ _ 0
    (by rw [pad_fst_length, pad_snd_length]), pad_fst_val, pad_snd_val]
  norm_num

theorem add_same_sign_digits_ne_nil (x y : LargeInt) (hne : x.digits ≠ []) :
    (x.add_same_sign y).digits ≠ [] := by
  rw [LargeInt.add_same_sign]
  apply (new_norm _ _ ?_).1
  intro hc
  have h1 : (addLoop ((LargeInt.pad_equal_lengths x y).1.zip
      (LargeInt.pad_equal_lengths x y).2) 0).length = 0 := by rw [hc]; rfl
  have h2 : 1 ≤ x.digits.length := List.length_pos.2 hne
  have h3 : ∀ (z : List (Nat × Nat)) (c : Nat), z.length ≤ (addLoop z c).length := by
    intro z
    induction z with
    | nil => intro c; by_cases hc0 : c > 0 <;> simp [addLoop, hc0]
    | cons p rest ih =>
      intro c
      cases p with
      | mk u v =>
        show rest.length + 1 ≤ (addLoop ((u, v) :: rest) c).length
        have := ih ((u + v + c) / 10)
        simp only [addLoop, List.length_cons]
        omega
  have h4 := h3 ((LargeInt.pad_equal_lengths x y).1.zip
    (LargeInt.pad_equal_lengths x y).2) 0
  rw [h1, List.length_zip, pad_fst_length, pad_snd_length] at h4
  omega

theorem subLoop_spec (ap : List Nat) : ∀ (bp : List Nat) (br : Nat),
    ap.length = bp.length → (∀ d ∈ ap, d < 10) → (∀ d ∈ bp, d < 10) → br ≤ 1 →
    digitsVal bp + br ≤ digitsVal ap →
    digitsVal (subLoop (ap.zip bp) br) + digitsVal bp + br = digitsVal ap ∧
      (∀ d ∈ subLoop (ap.zip bp) br, d < 10) ∧
      (subLoop (ap.zip bp) br).length = ap.length := by
  induction ap with
  | nil =>
    intro bp br hlen _ _ _ hle
    have hbp : bp = [] := by
      cases bp with
      | nil => rfl
      | cons b bs => simp at hlen
    subst hbp
    refine ⟨?_, by intro d hd; simp [subLoop] at hd, rfl⟩
    have h0 : digitsVal ([] : List Nat) = 0 := rfl
    rw [h0] at hle ⊢
    show digitsVal [] + 0 + br = 0
    have hbr : br = 0 := by omega
    simp [hbr, digitsVal]
  | cons a as ih =>
    intro bp br hlen hba hbb hbr hle
    cases bp with
    | nil => simp at hlen
    | cons b bs =>
      have hlen' : as.length = bs.length := by simpa using hlen
      have ha9 : a < 10 := hba a (List.mem_cons_self a as)
      have hb9 : b < 10 := hbb b (List.mem_cons_self b bs)
      have hbas : ∀ d ∈ as, d < 10 := fun d hd => hba d (List.mem_cons_of_mem a hd)
      have hbbs : ∀ d ∈ bs, d < 10 := fun d hd => hbb d (List.mem_cons_of_mem b hd)
      have hval : b + 10 * digitsVal bs + br ≤ a + 10 * digitsVal as := by
        have h1 : digitsVal (b :: bs) = b + 10 * digitsVal bs := rfl
        have h2 : digitsVal (a :: as) = a + 10 * digitsVal as := rfl
        rw [h1, h2] at hle
        omega
      rw [List.zip_cons_cons]
      have dv_cons : ∀ (u : Nat) (l : List Nat), digitsVal (u :: l) = u + 10 * digitsVal l :=
        fun _ _ => rfl
      by_cases hcase : (a : Int) - b - br < 0
      · have hstep : subLoop ((a, b) :: as.zip bs) br =
            ((a : Int) - b - br + 10).toNat :: subLoop (as.zip bs) 1 := by
          simp [subLoop, hcase]
        have hlt : a < b + br := by omega
        have hdig : ((a : Int) - b - br + 10).toNat = a + 10 - b - br := by omega
        have hih : digitsVal bs + 1 ≤ digitsVal as := by omega
        obtain ⟨ihv, ihb, ihl⟩ := ih bs 1 hlen' hbas hbbs (by omega) hih
        refine ⟨?_, ?_, ?_⟩
        · rw [hstep, dv_cons, dv_cons, dv_cons, hdig]
          omega
        · intro d hd
          rw [hstep] at hd
          rcases List.mem_cons.1 hd with h | h
          · rw [h, hdig]; omega
          · exact ihb d h
        · rw [hstep, List.length_cons, List.length_cons, ihl]
      · have hstep : subLoop ((a, b) :: as.zip bs) br =
            ((a : Int) - b - br).toNat :: subLoop (as.zip bs) 0 := by
          simp [subLoop, hcase]
        have hge : b + br ≤ a := by omega
        have hdig : ((a : Int) - b - br).toNat = a - b - br := by omega
        have hih : digitsVal bs ≤ digitsVal as := by omega
        obtain ⟨ihv, ihb, ihl⟩ := ih bs 0 hlen' hbas hbbs (by omega) (by omega)
        refine ⟨?_, ?_, ?_⟩
        · rw [hstep, dv_cons, dv_cons, dv_cons, hdig]
          omega
        · intro d hd
          rw [hstep] at hd
          rcases List.mem_cons.1 hd with h | h
          · rw [h, hdig]; omega
          · exact ihb d h
        · rw [hstep, List.length_cons, List.length_cons, ihl]

theorem subtract_same_sign_spec (x y : LargeInt) (hbx : ∀ d ∈ x.digits, d < 10)
    (hby : ∀ d ∈ y.digits, d < 10) (hne : x.digits ≠ [])
    (hle : digitsVal y.digits ≤ digitsVal x.digits) :
    digitsVal (x.subtract_same_sign y).digits + digitsVal y.digits =
        digitsVal x.digits ∧
      NormDigits (x.subtract_same_sign y).digits ∧
      (∀ d ∈ (x.subtract_same_sign y).digits, d < 10) ∧
      (x.sign = 1 → (x.subtract_same_sign y).sign = 1) := by
  have hlen : (LargeInt.pad_equal_lengths x y).1.length =
      (LargeInt.pad_equal_lengths x y).2.length := by
    rw [pad_fst_length, pad_snd_length]
  have hb1 := pad_fst_bounded x y hbx
  have hb2 := pad_snd_bounded x y hby
  have hv1 := pad_fst_val x y
  have hv2 := pad_snd_val x y
  obtain ⟨hval, hbout, hlout⟩ := subLoop_spec _ _ 0 hlen hb1 hb2 (by omega)
    (by rw [hv1, hv2]; omega)
  have houtne : (subLoop ((LargeInt.pad_equal_lengths x y).1.zip
      (LargeInt.pad_equal_lengths x y).2) 0) ≠ [] := by
    intro hc
    have h0 : (subLoop ((LargeInt.pad_equal_lengths x y).1.zip
      (LargeInt.pad_equal_lengths x y).2) 0).length = 0 := by rw [hc]; rfl
    rw [hlout, pad_fst_length] at h0
    have h2 : 1 ≤ x.digits.length := List.length_pos.2 hne
    omega
  refine ⟨?_, ?_, ?_, ?_⟩
  · simp only [LargeInt.subtract_same_sign, new_digits_val]
    omega
  · exact new_norm _ _ houtne
  · exact new_bounded _ _ hbout
  · intro hs1
    simp only [LargeInt.subtract_same_sign, hs1]
    exact new_sign_one _

theorem is_zero_iff (x : LargeInt) : x.is_zero = true ↔ x.digits = [0] := by
  rw [LargeInt.is_zero]
  cases hd : x.digits with
  | nil => simp
  | cons d t =>
    cases t with
    | nil => simp
    | cons e t' => simp

theorem divInner_spec (b : LargeInt) (hbn : NormDigits b.digits)
    (hbb : ∀ d ∈ b.digits, d < 10) (hbpos : 1 ≤ digitsVal b.digits) :
    ∀ (fuel : Nat) (rem : LargeInt), rem.sign = 1 → NormDigits rem.digits →
    (∀ d ∈ rem.digits, d < 10) → digitsVal rem.digits < fuel →
    ∃ c r, divInner b fuel rem = some (c, r) ∧
      c * digitsVal b.digits + digitsVal r.digits = digitsVal rem.digits ∧
      digitsVal r.digits < digitsVal b.digits ∧
      r.sign = 1 ∧ NormDigits r.digits ∧ (∀ d ∈ r.digits, d < 10) := by
  intro fuel
  induction fuel with
  | zero =>
    intro rem _ _ _ hlt
    omega
  | succ fuel ih =>
    intro rem hrs hrn hrb hlt
    have hcmp := compare_abs_spec rem b hrn hrb hbn hbb
    by_cases hR : digitsVal rem.digits < digitsVal b.digits
    · have hcondF : ¬(rem.compare_abs b ≠ Ordering.lt) := by
        rw [hcmp, Nat.compare_eq_lt.2 hR]
        simp
      refine ⟨0, rem, ?_, by omega, hR, hrs, hrn, hrb⟩
      show (if rem.compare_abs b ≠ Ordering.lt then _ else some (0, rem)) = _
      rw [if_neg hcondF]
    · have hle : digitsVal b.digits ≤ digitsVal rem.digits := by omega
      have hcondT : rem.compare_abs b ≠ Ordering.lt := by
        rw [hcmp]
        intro hc
        exact hR (Nat.compare_eq_lt.1 hc)
      obtain ⟨hv2, hn2, hb2, hs2⟩ := subtract_same_sign_spec rem b hrb hbb hrn.1 hle
      have hs2' : (rem.subtract_same_sign b).sign = 1 := hs2 hrs
      have hlt2 : digitsVal (rem.subtract_same_sign b).digits < fuel := by omega
      obtain ⟨c, r, heq, hval, hrlt, hrsgn, hrn2, hrb2⟩ :=
        ih (rem.subtract_same_sign b) hs2' hn2 hb2 hlt2
      have hmul : (c + 1) * digitsVal b.digits =
          c * digitsVal b.digits + digitsVal b.digits := by ring
      refine ⟨c + 1, r, ?_, by omega, hrlt, hrsgn, hrn2, hrb2⟩
      show (if rem.compare_abs b ≠ Ordering.lt then _ else _) = _
      rw [if_pos hcondT, heq]

theorem divLoop_spec (b : LargeInt) (hbn : NormDigits b.digits)
    (hbb : ∀ d ∈ b.digits, d < 10) (hbpos : 1 ≤ digitsVal b.digits) :
    ∀ (ds : List Nat) (rem : LargeInt), (∀ d ∈ ds, d < 10) → rem.sign = 1 →
    NormDigits rem.digits → (∀ d ∈ rem.digits, d < 10) →
    digitsVal rem.digits < digitsVal b.digits →
    ∃ qs remF, divLoop b ds rem = some (qs, remF) ∧
      valueMSB qs * digitsVal b.digits + digitsVal remF.digits =
        10 ^ ds.length * digitsVal rem.digits + valueMSB ds ∧
      (∀ q ∈ qs, q < 10) ∧ qs.length = ds.length ∧
      remF.sign = 1 ∧ NormDigits remF.digits ∧ (∀ d ∈ remF.digits, d < 10) ∧
      digitsVal remF.digits < digitsVal b.digits := by
  intro ds
  induction ds with
  | nil =>
    intro rem _ hrs hrn hrb hrlt
    refine ⟨[], rem, rfl, ?_, by intro q hq; simp at hq, rfl, hrs, hrn, hrb, hrlt⟩
    show 0 * digitsVal b.digits + digitsVal rem.digits =
      10 ^ 0 * digitsVal rem.digits + 0
    omega
  | cons d ds' ih =>
    intro rem hdb hrs hrn hrb hrlt
    have hd9 : d < 10 := hdb d (List.mem_cons_self d ds')
    have hdb' : ∀ e ∈ ds', e < 10 := fun e he => hdb e (List.mem_cons_of_mem d he)
    -- the renormalized remainder after prepending the digit
    have hrem' : LargeInt.normalize ⟨rem.sign, d :: rem.digits⟩ =
        LargeInt.new 1 (d :: rem.digits) := by
      rw [LargeInt.normalize, hrs]
    have hsign' : (LargeInt.new 1 (d :: rem.digits)).sign = 1 := new_sign_one _
    have hval' : digitsVal (LargeInt.new 1 (d :: rem.digits)).digits =
        d + 10 * digitsVal rem.digits := new_digits_val _ _
    have hnorm' : NormDigits (LargeInt.new 1 (d :: rem.digits)).digits :=
      new_norm _ _ (by simp)
    have hbnd' : ∀ e ∈ (LargeInt.new 1 (d :: rem.digits)).digits, e < 10 := by
      apply new_bounded
      intro e he
      rcases List.mem_cons.1 he with h | h
      · omega
      · exact hrb e h
    obtain ⟨c, r2, hinner, hcv, hr2lt, hr2s, hr2n, hr2b⟩ :=
      divInner_spec b hbn hbb hbpos (digitsVal (LargeInt.new 1 (d :: rem.digits)).digits + 1)
        (LargeInt.new 1 (d :: rem.digits)) hsign' hnorm' hbnd' (by omega)
    have hc9 : c < 10 := by
      by_contra hc
      have h10 : 10 ≤ c := by omega
      have : 10 * digitsVal b.digits ≤ c * digitsVal b.digits :=
        Nat.mul_le_mul_right _ h10
      omega
    obtain ⟨qs', remF, hloop', hvloop, hqb', hql', hFs, hFn, hFb, hFlt⟩ :=
      ih r2 hdb' hr2s hr2n hr2b hr2lt
    refine ⟨c :: qs', remF, ?_, ?_, ?_, by simp [hql'], hFs, hFn, hFb, hFlt⟩
    · simp only [divLoop, divDigitStep, hrem', hinner, hloop']
    · show (c * 10 ^ qs'.length + valueMSB qs') * digitsVal b.digits +
        digitsVal remF.digits = _
      rw [hql']
      have hstep : digitsVal (LargeInt.new 1 (d :: rem.digits)).digits =
          d + 10 * digitsVal rem.digits := hval'
      rw [hstep] at hcv
      calc (c * 10 ^ ds'.length + valueMSB qs') * digitsVal b.digits +
            digitsVal remF.digits
          = c * 10 ^ ds'.length * digitsVal b.digits +
            (valueMSB qs' * digitsVal b.digits + digitsVal remF.digits) := by ring
      _ = c * 10 ^ ds'.length * digitsVal b.digits +
            (10 ^ ds'.length * digitsVal r2.digits + valueMSB ds') := by rw [hvloop]
      _ = 10 ^ ds'.length * (c * digitsVal b.digits + digitsVal r2.digits) +
            valueMSB ds' := by ring
      _ = 10 ^ ds'.length * (d + 10 * digitsVal rem.digits) + valueMSB ds' := by
            rw [hcv]
      _ = 10 ^ (d :: ds').length * digitsVal rem.digits +
            (d * 10 ^ ds'.length + valueMSB ds') := by
            simp only [List.length_cons]
            ring
      _ = 10 ^ (d :: ds').length * digitsVal rem.digits + valueMSB (d :: ds') := rfl
    · intro q hq
      rcases List.mem_cons.1 hq with h | h
      · omega
      · exact hqb' q h

theorem divide_spec (a b : LargeInt) (ha : ValidRep a) (hb : ValidRep b)
    (hbz : b.is_zero = false) :
    ∃ q r, divide_and_modulo a b = some (q, r) ∧
      digitsVal q.digits * digitsVal b.digits + digitsVal r.digits =
        digitsVal a.digits ∧
      digitsVal r.digits < digitsVal b.digits ∧
      r.sign = 1 ∧ ValidRep r ∧ ValidRep q ∧
      (digitsVal q.digits ≠ 0 → q.sign = a.sign * b.sign) := by
  have hbn : NormDigits b.digits := ⟨hb.2.2.1, hb.2.2.2.1⟩
  have hbb : ∀ d ∈ b.digits, d < 10 := hb.2.1
  have hbne0 : b.digits ≠ [0] := fun hc => by
    rw [← is_zero_iff] at hc
    rw [hc] at hbz
    simp at hbz
  have hbpos : 1 ≤ digitsVal b.digits := digitsVal_pos _ hbn hbne0
  have hz_s : LargeInt.zero.sign = 1 := rfl
  have hz_n : NormDigits LargeInt.zero.digits := ⟨by decide, fun _ => by decide⟩
  have hz_b : ∀ d ∈ LargeInt.zero.digits, d < 10 := by decide
  have hz_v : digitsVal LargeInt.zero.digits = 0 := rfl
  have hadb : ∀ d ∈ a.digits.reverse, d < 10 := fun d hd => ha.2.1 d (by simpa using hd)
  obtain ⟨qs, remF, hloop, hval, hqb, hql, hFs, hFn, hFb, hFlt⟩ :=
    divLoop_spec b hbn hbb hbpos a.digits.reverse LargeInt.zero hadb hz_s hz_n hz_b
      (by omega)
  have hqrne : qs.reverse ≠ [] := by
    intro hc
    have h0 : qs.length = 0 := by
      have := congrArg List.length hc
      simpa using this
    rw [hql] at h0
    simp only [List.length_reverse] at h0
    have := List.length_pos.2 ha.2.2.1
    omega
  have hqrb : ∀ d ∈ qs.reverse, d < 10 := fun d hd => hqb d (by simpa using hd)
  have hsprod : a.sign * b.sign = 1 ∨ a.sign * b.sign = -1 := by
    rcases ha.1 with h1 | h1 <;> rcases hb.1 with h2 | h2 <;>
      rw [h1, h2] <;> norm_num
  have hqv : digitsVal (LargeInt.new (a.sign * b.sign) qs.reverse).digits =
      valueMSB qs := by
    rw [new_digits_val, digitsVal_eq_valueMSB_reverse, List.reverse_reverse]
  refine ⟨LargeInt.new (a.sign * b.sign) qs.reverse, remF, ?_, ?_, hFlt, hFs, ?_, ?_, ?_⟩
  · rw [divide_and_modulo, if_neg (by rw [hbz]; exact Bool.false_ne_true), hloop]
  · rw [hz_v] at hval
    simp only [Nat.mul_zero, Nat.zero_add] at hval
    rw [hqv, digitsVal_eq_valueMSB_reverse a.digits]
    exact hval
  · exact ⟨Or.inl hFs, hFb, hFn.1, hFn.2, fun _ => hFs⟩
  · exact new_valid _ _ hsprod hqrne hqrb
  · intro hnz
    rcases new_sign_cases (a.sign * b.sign) qs.reverse with h | h
    · exact h
    · exact absurd (by rw [h.2]; rfl) hnz

theorem rowLoop_length (da : Nat) : ∀ (bs acc : List Nat) (c : Nat),
    (rowLoop da bs acc c).length = acc.length := by
  intro bs
  induction bs with
  | nil =>
    intro acc c
    cases acc with
    | nil => rfl
    | cons x rest => rfl
  | cons b bs' ih =>
    intro acc c
    cases acc with
    | nil => rfl
    | cons x rest =>
      show (_ :: rowLoop da bs' rest _).length = _
      simp [ih]

theorem rowLoop_val (da : Nat) : ∀ (bs acc : List Nat) (c : Nat),
    bs.length < acc.length →
    digitsVal (rowLoop da bs acc c) = digitsVal acc + da * digitsVal bs + c := by
  intro bs
  induction bs with
  | nil =>
    intro acc c hlen
    cases acc with
    | nil => simp at hlen
    | cons x rest =>
      show digitsVal ((x + c) :: rest) = digitsVal (x :: rest) + da * 0 + c
      show x + c + 10 * digitsVal rest = x + 10 * digitsVal rest + da * 0 + c
      ring
  | cons b bs' ih =>
    intro acc c hlen
    cases acc with
    | nil => simp at hlen
    | cons x rest =>
      have hlen' : bs'.length < rest.length := by
        simp only [List.length_cons] at hlen
        omega
      show digitsVal ((x + da * b + c) % 10 ::
        rowLoop da bs' rest ((x + da * b + c) / 10)) = _
      have hdv : ∀ (u : Nat) (l : List Nat), digitsVal (u :: l) = u + 10 * digitsVal l :=
        fun _ _ => rfl
      rw [hdv, ih rest _ hlen', hdv, hdv]
      have hmd : (x + da * b + c) % 10 + 10 * ((x + da * b + c) / 10) =
          x + da * b + c := Nat.mod_add_div _ _
      have hgoal : (x + da * b + c) % 10 +
          10 * (digitsVal rest + da * digitsVal bs' + (x + da * b + c) / 10) =
          ((x + da * b + c) % 10 + 10 * ((x + da * b + c) / 10)) +
            10 * digitsVal rest + 10 * (da * digitsVal bs') := by ring
      rw [hgoal, hmd]
      ring

theorem mulRows_val (bs : List Nat) : ∀ (as acc : List Nat),
    bs.length + as.length ≤ acc.length →
    digitsVal (mulRows bs as acc) = digitsVal acc + digitsVal as * digitsVal bs := by
  intro as
  induction as with
  | nil =>
    intro acc _
    show digitsVal acc = digitsVal acc + 0 * digitsVal bs
    ring
  | cons da das ih =>
    intro acc hlen
    have hblen : bs.length < acc.length := by
      simp only [List.length_cons] at hlen
      omega
    have hrl := rowLoop_length da bs acc 0
    have hrv := rowLoop_val da bs acc 0 hblen
    rcases hacc' : rowLoop da bs acc 0 with _ | ⟨x, rest⟩
    · rw [hacc'] at hrl
      simp only [List.length_nil] at hrl
      omega
    · rw [hacc'] at hrl hrv
      have hrest : bs.length + das.length ≤ rest.length := by
        simp only [List.length_cons] at hrl hlen
        omega
      show digitsVal (mulRows bs (da :: das) acc) = _
      have hstep : mulRows bs (da :: das) acc = x :: mulRows bs das rest := by
        show (match rowLoop da bs acc 0 with
          | [] => []
          | x :: rest => x :: mulRows bs das rest) = _
        rw [hacc']
      rw [hstep]
      have hdv : ∀ (u : Nat) (l : List Nat), digitsVal (u :: l) = u + 10 * digitsVal l :=
        fun _ _ => rfl
      rw [hdv, ih rest hrest]
      rw [hdv] at hrv
      have expand : digitsVal (da :: das) * digitsVal bs =
          da * digitsVal bs + 10 * (digitsVal das * digitsVal bs) := by
        rw [hdv]
        ring
      rw [expand]
      omega

theorem multiply_value (a b : LargeInt) :
    value (multiply a b) = value a * value b := by
  rw [multiply]
  show value ((LargeInt.new (a.sign * b.sign) (mulRows b.digits a.digits
    (List.replicate (a.digits.length + b.digits.length) 0))).normalize) = _
  rw [normalize_new, value_new]
  rw [mulRows_val b.digits a.digits _ (by
    rw [List.length_replicate]
    omega)]
  rw [digitsVal_replicate_zero]
  rw [value, value]
  push_cast
  ring

theorem rowLoop_one (bs : List Nat) (hb : ∀ d ∈ bs, d < 10) :
    rowLoop 1 bs (List.replicate (bs.length + 1) 0) 0 = bs ++ [0] := by
  induction bs with
  | nil => rfl
  | cons b bs' ih =>
    have hb9 : b < 10 := hb b (List.mem_cons_self b bs')
    have hbs' : ∀ d ∈ bs', d < 10 := fun d hd => hb d (List.mem_cons_of_mem b hd)
    have hrepl : List.replicate ((b :: bs').length + 1) 0 =
        0 :: List.replicate (bs'.length + 1) 0 := by
      simp [List.replicate_succ]
    rw [hrepl]
    show (0 + 1 * b + 0) % 10 :: rowLoop 1 bs' (List.replicate (bs'.length + 1) 0)
      ((0 + 1 * b + 0) / 10) = (b :: bs') ++ [0]
    have h1 : (0 + 1 * b + 0) % 10 = b := by omega
    have h2 : (0 + 1 * b + 0) / 10 = 0 := by omega
    rw [h1, h2, ih hbs']
    rfl

theorem mul_one_left (x : LargeInt) (h : ValidRep x) :
    multiply LargeInt.one x = x := by
  have hnorm : NormDigits x.digits := ⟨h.2.2.1, h.2.2.2.1⟩
  have hone_d : LargeInt.one.digits = [1] := rfl
  have hone_s : LargeInt.one.sign = 1 := rfl
  rw [multiply, hone_d, hone_s]
  have hlen : LargeInt.one.digits.length + x.digits.length = x.digits.length + 1 := by
    rw [hone_d]
    simp [Nat.add_comm]
  rw [hone_d] at hlen
  rw [hlen]
  have hrow := rowLoop_one x.digits h.2.1
  have hmul : mulRows x.digits [1] (List.replicate (x.digits.length + 1) 0) =
      x.digits ++ [0] := by
    have hstep : mulRows x.digits [1] (List.replicate (x.digits.length + 1) 0) =
        match rowLoop 1 x.digits (List.replicate (x.digits.length + 1) 0) 0 with
        | [] => []
        | y :: rest => y :: mulRows x.digits [] rest := rfl
    rw [hstep, hrow]
    rcases hxd : x.digits with _ | ⟨d, ds⟩
    · exact absurd hxd h.2.2.1
    · rfl
  rw [hmul]
  have hnew : LargeInt.new (1 * x.sign) (x.digits ++ [0]) =
      LargeInt.new x.sign x.digits := by
    rw [one_mul]
    simp only [LargeInt.new, stripTrail_append_zero _ hnorm, stripTrail_fix _ hnorm]
  rw [hnew, new_of_valid x h]
  show LargeInt.new x.sign x.digits = x
  exact new_of_valid x h

theorem is_zero_digits_congr (e₁ e₂ : LargeInt) (h : e₁.digits = e₂.digits) :
    e₁.is_zero = e₂.is_zero := by
  rw [LargeInt.is_zero, LargeInt.is_zero, h]

theorem divide_digits_congr (e₁ e₂ b : LargeInt) (h : e₁.digits = e₂.digits) :
    (divide_and_modulo e₁ b = none → divide_and_modulo e₂ b = none) ∧
    (∀ q₁ r₁, divide_and_modulo e₁ b = some (q₁, r₁) →
      ∃ q₂, divide_and_modulo e₂ b = some (q₂, r₁) ∧ q₁.digits = q₂.digits) := by
  rw [divide_and_modulo, divide_and_modulo, h]
  by_cases hz : b.is_zero
  · simp [hz]
  · simp only [hz, Bool.false_eq_true, if_false, ite_false]
    rcases hloop : divLoop b e₂.digits.reverse LargeInt.zero with _ | ⟨qs, rem⟩
    · simp
    · constructor
      · intro hc
        simp at hc
      · intro q₁ r₁ heq
        have heq' : q₁ = LargeInt.new (e₁.sign * b.sign) qs.reverse ∧ r₁ = rem := by
          have := heq
          simp only [Option.some_inj] at this
          exact ⟨congrArg Prod.fst this |>.symm, congrArg Prod.snd this |>.symm⟩
        refine ⟨LargeInt.new (e₂.sign * b.sign) qs.reverse, by rw [heq'.2], ?_⟩
        rw [heq'.1]
        exact new_digits_sign_irrel _ _ _

theorem expLoop_digits_congr : ∀ (fuel : Nat) (result base e₁ e₂ : LargeInt),
    e₁.digits = e₂.digits → expLoop fuel result base e₁ = expLoop fuel result base e₂ := by
  intro fuel
  induction fuel with
  | zero =>
    intro result base e₁ e₂ h
    show (if e₁.is_zero then some result else none) =
      (if e₂.is_zero then some result else none)
    rw [is_zero_digits_congr e₁ e₂ h]
  | succ fuel ih =>
    intro result base e₁ e₂ h
    have hiz := is_zero_digits_congr e₁ e₂ h
    show (if e₁.is_zero then some result else _) = (if e₂.is_zero then some result else _)
    by_cases hz : e₂.is_zero
    · rw [hiz, hz]
      simp
    · have hz1 : ¬(e₁.is_zero = true) := by rw [hiz]; exact hz
      rw [if_neg hz1, if_neg hz]
      have hhead : e₁.digits.headD 0 = e₂.digits.headD 0 := by rw [h]
      rw [hhead]
      obtain ⟨hnone, hsome⟩ := divide_digits_congr e₁ e₂ (LargeInt.new 1 [2]) h
      rcases hdiv : divide_and_modulo e₁ (LargeInt.new 1 [2]) with _ | ⟨q, r⟩
      · rw [hnone hdiv]
      · obtain ⟨q₂, hdiv2, hqd⟩ := hsome q r hdiv
        rw [hdiv2]
        exact ih _ _ q q₂ hqd

theorem valid_two : ValidRep (LargeInt.new 1 [2]) := by decide

theorem expLoop_isSome : ∀ (fuel : Nat) (result base exp : LargeInt),
    ValidRep exp → digitsVal exp.digits < fuel →
    (expLoop fuel result base exp).isSome = true := by
  intro fuel
  induction fuel with
  | zero =>
    intro result base exp hv hlt
    omega
  | succ fuel ih =>
    intro result base exp hv hlt
    show (if exp.is_zero then some result else _).isSome = true
    by_cases hz : exp.is_zero
    · rw [if_pos hz]
      rfl
    · rw [if_neg hz]
      have hzf : exp.is_zero = false := by
        cases hb : exp.is_zero
        · rfl
        · exact absurd hb hz
      have hEpos : 1 ≤ digitsVal exp.digits := by
        apply digitsVal_pos _ ⟨hv.2.2.1, hv.2.2.2.1⟩
        intro hc
        rw [← is_zero_iff] at hc
        rw [hc] at hzf
        simp at hzf
      obtain ⟨q, r, hdiv, hval, hrlt, _, _, hqv, _⟩ :=
        divide_spec exp (LargeInt.new 1 [2]) hv valid_two (by rfl)
      have htwo : digitsVal (LargeInt.new 1 [2]).digits = 2 := rfl
      rw [htwo] at hval hrlt
      have hqlt : digitsVal q.digits < fuel := by omega
      rw [hdiv]
      exact ih _ _ q hqv hqlt

theorem exponentiate_digits_congr (base e₁ e₂ : LargeInt) (h : e₁.digits = e₂.digits) :
    exponentiate base e₁ = exponentiate base e₂ := by
  rw [exponentiate, exponentiate, is_zero_digits_congr e₁ e₂ h, h]
  by_cases hz : e₂.is_zero
  · simp [hz]
  · simp only [hz, Bool.false_eq_true, if_false, ite_false]
    exact expLoop_digits_congr _ _ _ e₁ e₂ h

theorem exponentiate_isSome (base exp : LargeInt) (h : ValidRep exp) :
    (exponentiate base exp).isSome = true := by
  rw [exponentiate]
  by_cases hz : exp.is_zero
  · rw [if_pos hz]
    rfl
  · rw [if_neg hz]
    exact expLoop_isSome _ _ _ _ h (by omega)

theorem div_one_two : divide_and_modulo LargeInt.one (LargeInt.new 1 [2]) =
    some (LargeInt.zero, LargeInt.one) := by decide

theorem exponentiate_one_exponent (x : LargeInt) (h : ValidRep x) :
    exponentiate x LargeInt.one = some x := by
  rw [exponentiate]
  have hz1 : LargeInt.one.is_zero = false := rfl
  rw [hz1]
  show expLoop 2 LargeInt.one x LargeInt.one = some x
  show (if LargeInt.one.is_zero then some LargeInt.one
    else
      let result' := if LargeInt.one.digits.headD 0 % 2 = 1
        then multiply LargeInt.one x else LargeInt.one
      match divide_and_modulo LargeInt.one (LargeInt.new 1 [2]) with
      | none => none
      | some (q, _) => expLoop 1 result' (multiply x x) q) = some x
  rw [div_one_two]
  simp only [hz1, Bool.false_eq_true, if_false, ite_false]
  have hodd : LargeInt.one.digits.headD 0 % 2 = 1 := rfl
  simp only [hodd, if_pos, if_true, ite_true]
  show (if LargeInt.zero.is_zero then some (multiply LargeInt.one x) else none) = some x
  have hz0 : LargeInt.zero.is_zero = true := rfl
  rw [hz0]
  simp only [if_true, ite_true]
  rw [mul_one_left x h]

theorem natDigitsAux_val : ∀ (fuel n : Nat), n ≤ fuel →
    digitsVal (natDigitsAux fuel n) = n := by
  intro fuel
  induction fuel with
  | zero =>
    intro n hn
    have hn0 : n = 0 := by omega
    subst hn0
    rfl
  | succ fuel ih =>
    intro n hn
    cases n with
    | zero => rfl
    | succ m =>
      have hdiv : (m + 1) / 10 < m + 1 := Nat.div_lt_self (by omega) (by omega)
      show digitsVal ((m + 1) % 10 :: natDigitsAux fuel ((m + 1) / 10)) = m + 1
      show (m + 1) % 10 + 10 * digitsVal (natDigitsAux fuel ((m + 1) / 10)) = m + 1
      rw [ih ((m + 1) / 10) (by omega)]
      have := Nat.mod_add_div (m + 1) 10
      omega

theorem natToLarge_value (x : Nat) : value (natToLarge x) = (x : Int) := by
  rw [natToLarge, value_new]
  by_cases hx : x = 0
  · subst hx
    rfl
  · rw [if_neg hx, natDigits, natDigitsAux_val x x (le_refl x)]
    ring

theorem value_one : value LargeInt.one = 1 := by decide

theorem factorial_fold (k : Nat) :
    value (((List.range' 1 k).map natToLarge).foldl
      (fun acc x => multiply acc x) LargeInt.one) = (Nat.factorial k : Int) := by
  induction k with
  | zero => decide
  | succ k ih =>
    rw [List.range'_1_concat, List.map_append, List.foldl_append]
    show value (multiply _ (natToLarge (1 + k))) = _
    rw [multiply_value, ih, natToLarge_value, Nat.factorial_succ]
    push_cast
    ring

theorem isDigit_not_isWhitespace (c : Char) (h : c.isDigit = true) :
    c.isWhitespace = false := by
  cases hw : c.isWhitespace
  · rfl
  · exfalso
    have hw' : (c == ' ' || c == '\t' || c == '\r' || c == '\n') = true := hw
    simp only [Bool.or_eq_true, beq_iff_eq] at hw'
    rcases hw' with ((h1 | h1) | h1) | h1 <;> (subst h1; exact absurd h (by decide))

theorem mem_dropWhile_of_not (p : Char → Bool) (l : List Char) (c : Char)
    (hc : c ∈ l) (hp : p c = false) : c ∈ l.dropWhile p := by
  induction l with
  | nil => simp at hc
  | cons a t ih =>
    by_cases hpa : p a = true
    · rw [List.dropWhile_cons_of_pos hpa]
      rcases List.mem_cons.1 hc with h | h
      · subst h
        rw [hp] at hpa
        simp at hpa
      · exact ih h
    · rw [List.dropWhile_cons_of_neg hpa]
      exact hc

theorem mem_trimChars_of_digit (cs : List Char) (c : Char) (hc : c ∈ cs)
    (hd : c.isDigit = true) : c ∈ trimChars cs := by
  have hw := isDigit_not_isWhitespace c hd
  rw [trimChars, List.mem_reverse]
  apply mem_dropWhile_of_not _ _ _ _ hw
  rw [List.mem_reverse]
  exact mem_dropWhile_of_not _ _ _ hc hw

theorem trimChars_subset (cs : List Char) (c : Char) (hc : c ∈ trimChars cs) :
    c ∈ cs := by
  rw [trimChars, List.mem_reverse] at hc
  have h1 := (List.dropWhile_sublist _).mem hc
  rw [List.mem_reverse] at h1
  exact (List.dropWhile_sublist _).mem h1

theorem parse_no_digits (cs : List Char) (h : ∀ c ∈ cs, c.isDigit = false) :
    (LargeInt.parse cs).digits = [] ∧
      (LargeInt.parse cs).sign =
        (if (trimChars cs).head? = some '-' then -1 else 1) := by
  have hfilter : (trimChars cs).filter Char.isDigit = [] := by
    rw [List.filter_eq_nil_iff]
    intro a ha
    rw [h a (trimChars_subset cs a ha)]
    simp
  rw [LargeInt.parse]
  simp only [hfilter, List.map_nil, List.reverse_nil]
  constructor <;> rfl

theorem parse_digits_nonempty (cs : List Char) (c : Char) (hc : c ∈ cs)
    (hd : c.isDigit = true) :
    ((trimChars cs).filter Char.isDigit).map (fun c => c.toNat - '0'.toNat) ≠ [] := by
  intro hnil
  rw [List.map_eq_nil_iff] at hnil
  have hmem : c ∈ (trimChars cs).filter Char.isDigit :=
    List.mem_filter.2 ⟨mem_trimChars_of_digit cs c hc hd, hd⟩
  rw [hnil] at hmem
  simp at hmem

theorem repr_invariant_of_new (s : Int) (ds : List Nat) (h : ds ≠ []) :
    ReprInvariant (LargeInt.new s ds) := by
  obtain ⟨h1, h2⟩ := new_norm s ds h
  exact ⟨h1, h2, new_zero_sign s ds⟩

theorem mulRows_length (bs : List Nat) : ∀ (as acc : List Nat),
    (mulRows bs as acc).length = acc.length := by
  intro as
  induction as with
  | nil => intro acc; rfl
  | cons da das ih =>
    intro acc
    have hrl := rowLoop_length da bs acc 0
    rcases hacc' : rowLoop da bs acc 0 with _ | ⟨x, rest⟩
    · rw [hacc'] at hrl
      have hstep : mulRows bs (da :: das) acc = [] := by
        show (match rowLoop da bs acc 0 with
          | [] => []
          | x :: rest => x :: mulRows bs das rest) = _
        rw [hacc']
      rw [hstep, ← hrl]
    · rw [hacc'] at hrl
      have hstep : mulRows bs (da :: das) acc = x :: mulRows bs das rest := by
        show (match rowLoop da bs acc 0 with
          | [] => []
          | x :: rest => x :: mulRows bs das rest) = _
        rw [hacc']
      rw [hstep, ← hrl]
      simp [ih]

theorem multiply_digits_val (a b : LargeInt) :
    digitsVal (multiply a b).digits = digitsVal a.digits * digitsVal b.digits := by
  rw [multiply]
  show digitsVal ((LargeInt.new (a.sign * b.sign) (mulRows b.digits a.digits
    (List.replicate (a.digits.length + b.digits.length) 0))).normalize).digits = _
  rw [normalize_new, new_digits_val, mulRows_val b.digits a.digits _ (by
    rw [List.length_replicate]; omega), digitsVal_replicate_zero]
  omega

theorem multiply_norm (a b : LargeInt) (ha : a.digits ≠ [] ∨ b.digits ≠ []) :
    NormDigits (multiply a b).digits := by
  rw [multiply]
  show NormDigits ((LargeInt.new (a.sign * b.sign) (mulRows b.digits a.digits
    (List.replicate (a.digits.length + b.digits.length) 0))).normalize).digits
  rw [normalize_new]
  apply new_norm
  intro hc
  have h0 := congrArg List.length hc
  rw [mulRows_length, List.length_replicate] at h0
  simp only [List.length_nil] at h0
  rcases ha with h | h
  · have := List.length_pos.2 h
    omega
  · have := List.length_pos.2 h
    omega

theorem multiply_zero_sign (a b : LargeInt) (h : (multiply a b).digits = [0]) :
    (multiply a b).sign = 1 := by
  rw [multiply] at h ⊢
  revert h
  show ((LargeInt.new (a.sign * b.sign) (mulRows b.digits a.digits
    (List.replicate (a.digits.length + b.digits.length) 0))).normalize).digits = [0] → _
  rw [normalize_new]
  exact new_zero_sign _ _

theorem multiply_sign_cases (a b : LargeInt) :
    (multiply a b).sign = a.sign * b.sign ∨
      ((multiply a b).sign = 1 ∧ (multiply a b).digits = [0]) := by
  rw [multiply]
  show (LargeInt.new (a.sign * b.sign) (mulRows b.digits a.digits
    (List.replicate (a.digits.length + b.digits.length) 0))).normalize.sign =
      a.sign * b.sign ∨ _
  rw [normalize_new]
  exact new_sign_cases _ _

theorem add_pos_pos_value (x y : LargeInt) (hx : x.sign = 1) (hy : y.sign = 1) :
    value (x.add y) = value x + value y := by
  rw [LargeInt.add, if_pos ⟨hx, hy⟩, add_same_sign_value, hx]
  rw [value, value, hx, hy]
  push_cast
  ring

/-- C1: the claim (and the repository's own test `test_addition`) states that
adding a negative and a positive BigInt takes the sign from the magnitude
comparison, so `add(parse("-123"), parse("456"))` formats to `"333"`.
The code's `(-1, 1)` arm of `LargeInt::add` instead hard-codes the result
sign to `-1` (`result.sign = -1;`), producing `"-333"`. -/
theorem c1_add_mixed_sign_code_bug :
    ((LargeInt.parse "-123".data).add (LargeInt.parse "456".data)).to_string =
        "-333".data ∧
      ((LargeInt.parse "-123".data).add (LargeInt.parse "456".data)).to_string ≠
        "333".data := by decide

/-- C2 (counterexample): parsing an empty input produces a BigInt with an
empty digit list, violating the claimed representation invariant that the
digit sequence is never empty. -/
theorem c2_invariant_counterexample : ¬ ReprInvariant (LargeInt.parse "".data) := by
  decide

/-- C2 (amended): every BigInt built by `LargeInt::new` from a non-empty
digit vector satisfies the representation invariant (digits non-empty, no
trailing most-significant zeros except for the canonical zero `[0]`, and
zero positively signed), and so does every BigInt parsed from text that
contains at least one decimal digit. (Parsing digit-free text yields an
empty digit list, and the sign-forcing arms of add/subtract can produce a
negative zero, so neither is covered.) -/
theorem c2_invariant_amended :
    (∀ (s : Int) (ds : List Nat), ds ≠ [] → ReprInvariant (LargeInt.new s ds)) ∧
      (∀ cs : List Char, (∃ c ∈ cs, c.isDigit = true) →
        ReprInvariant (LargeInt.parse cs)) := by
  refine ⟨repr_invariant_of_new, ?_⟩
  rintro cs ⟨c, hc, hd⟩
  have hparse : LargeInt.parse cs = LargeInt.new
      (if (trimChars cs).head? = some '-' then -1 else 1)
      (((trimChars cs).filter Char.isDigit).map
        (fun c => c.toNat - '0'.toNat)).reverse := rfl
  rw [hparse]
  apply repr_invariant_of_new
  intro hnil
  rw [List.reverse_eq_nil_iff] at hnil
  exact parse_digits_nonempty cs c hc hd hnil

/-- C2 (witness): the amended invariant at concrete inputs. -/
theorem c2_invariant_witness :
    ReprInvariant (LargeInt.new (-1) [3, 0]) ∧
      ReprInvariant (LargeInt.parse " -07 ".data) :=
  ⟨c2_invariant_amended.1 (-1) [3, 0] (by decide),
   c2_invariant_amended.2 " -07 ".data (by decide)⟩

/-- C3 (counterexample): at `a = -17`, `b = 5` the code yields quotient `-3`
and remainder `2`, and `add(multiply(q, b), r)` denotes `-13`, not `-17`:
the division identity fails for negative dividends because the remainder is
always accumulated non-negative. -/
theorem c3_division_identity_counterexample :
    (divide_and_modulo (LargeInt.parse "-17".data) (LargeInt.parse "5".data)).map
        (fun p => value ((multiply p.1 (LargeInt.parse "5".data)).add p.2)) =
      some (-13) ∧ value (LargeInt.parse "-17".data) = -17 := by decide

/-- C3 (amended): for every well-formed BigInt `a` with positive sign and
every well-formed nonzero `b`, `divide_and_modulo` succeeds and
`add(multiply(q, b), r)` denotes the same integer value as `a`. -/
theorem c3_division_identity_nonneg (a b : LargeInt) (ha : ValidRep a)
    (hb : ValidRep b) (hsa : a.sign = 1) (hbz : b.is_zero = false) :
    ∃ q r, divide_and_modulo a b = some (q, r) ∧
      value ((multiply q b).add r) = value a := by
  obtain ⟨q, r, hdiv, hval, hrlt, hrs, hrv, hqv, hqs⟩ := divide_spec a b ha hb hbz
  refine ⟨q, r, hdiv, ?_⟩
  have hbsq : b.sign * b.sign = 1 := by
    rcases hb.1 with h | h <;> rw [h] <;> norm_num
  have hmnorm : NormDigits (multiply q b).digits :=
    multiply_norm q b (Or.inr hb.2.2.1)
  have hmval : digitsVal (multiply q b).digits =
      digitsVal q.digits * digitsVal b.digits := multiply_digits_val q b
  have hmsign : (multiply q b).sign = 1 := by
    by_cases hq0 : digitsVal q.digits = 0
    · have h0 : digitsVal (multiply q b).digits = 0 := by
        rw [hmval, hq0]
        ring
      have hm0 : (multiply q b).digits = [0] := by
        by_contra hne
        have := digitsVal_pos _ hmnorm hne
        omega
      exact multiply_zero_sign q b hm0
    · have hqs' := hqs hq0
      rcases multiply_sign_cases q b with h | h
      · rw [h, hqs', hsa, one_mul]
        exact hbsq
      · exact h.1
  rw [add_pos_pos_value _ _ hmsign hrs, multiply_value]
  have hvalInt : (digitsVal q.digits : Int) * digitsVal b.digits +
      digitsVal r.digits = digitsVal a.digits := by exact_mod_cast hval
  by_cases hq0 : digitsVal q.digits = 0
  · have hq0' : (digitsVal q.digits : Int) = 0 := by exact_mod_cast hq0
    have hA : (digitsVal a.digits : Int) = digitsVal r.digits := by
      rw [← hvalInt, hq0']
      ring
    rw [value, value, value, value, hrs, hsa, hq0', hA]
    ring
  · have hqs' := hqs hq0
    rw [hsa, one_mul] at hqs'
    rw [value, value, value, value, hqs', hrs, hsa]
    have hsplit : b.sign * (digitsVal q.digits : Int) *
        (b.sign * (digitsVal b.digits : Int)) + 1 * (digitsVal r.digits : Int) =
        b.sign * b.sign * ((digitsVal q.digits : Int) * digitsVal b.digits) +
          digitsVal r.digits := by ring
    rw [hsplit, hbsq, one_mul, hvalInt, one_mul]

/-- C3 (witness): the amended identity at `a = 17`, `b = 5`. -/
theorem c3_division_identity_witness :
    ∃ q r, divide_and_modulo (LargeInt.parse "17".data)
        (LargeInt.parse "5".data) = some (q, r) ∧
      value ((multiply q (LargeInt.parse "5".data)).add r) =
        value (LargeInt.parse "17".data) :=
  c3_division_identity_nonneg _ _ (by decide) (by decide) (by decide) (by decide)

/-- C4 (counterexample): parsing the empty text does not return the
canonical zero BigInt: its digit list is empty, not `[0]`. -/
theorem c4_parse_empty_counterexample :
    LargeInt.parse "".data ≠ LargeInt.zero ∧
      (LargeInt.parse "".data).digits = [] := by decide

/-- C4 (amended): `parse` never fails and non-decimal characters are
discarded before digit extraction, but when the text contains no decimal
digit at all the result has an *empty* digit sequence (with the sign taken
from a leading minus of the trimmed text), not the canonical zero `[0]`. -/
theorem c4_parse_lenient_amended (cs : List Char)
    (h : ∀ c ∈ cs, c.isDigit = false) :
    (LargeInt.parse cs).digits = [] ∧
      (LargeInt.parse cs).sign =
        (if (trimChars cs).head? = some '-' then -1 else 1) :=
  parse_no_digits cs h

/-- C4 (witness): the amended parse behavior at a concrete digit-free input. -/
theorem c4_parse_lenient_witness :
    (LargeInt.parse "abc".data).digits = [] ∧
      (LargeInt.parse "abc".data).sign =
        (if (trimChars "abc".data).head? = some '-' then -1 else 1) :=
  c4_parse_lenient_amended "abc".data (by decide)

/-- C5: the spec claims `add(a, b) = add(b, a)` for all BigInt values; the
hard-coded `-1` sign in the `(-1, 1)` arm of `LargeInt::add` (which the
repository's own `test_addition` contradicts) breaks commutativity at
`a = -123`, `b = 456`: `add(a, b)` is `-333` while `add(b, a)` is `333`. -/
theorem c5_add_not_commutative_code_bug :
    (LargeInt.parse "-123".data).add (LargeInt.parse "456".data) ≠
      (LargeInt.parse "456".data).add (LargeInt.parse "-123".data) := by decide

/-- C6: for well-formed BigInt inputs, `divide_and_modulo` fails (embedded
as `none`, modelling the division-by-zero panic) exactly when the divisor is
zero; on every nonzero divisor it returns a quotient-remainder pair. -/
theorem c6_divide_none_iff_zero (a b : LargeInt) (ha : ValidRep a)
    (hb : ValidRep b) :
    divide_and_modulo a b = none ↔ b.is_zero = true := by
  constructor
  · intro hnone
    by_contra hz
    have hzf : b.is_zero = false := by
      cases h : b.is_zero
      · rfl
      · exact absurd h hz
    obtain ⟨q, r, hdiv, _⟩ := divide_spec a b ha hb hzf
    rw [hdiv] at hnone
    exact Option.noConfusion hnone
  · intro hz
    rw [divide_and_modulo, if_pos hz]

/-- C6 (witness): the failure characterization at concrete inputs. -/
theorem c6_divide_none_iff_zero_witness :
    divide_and_modulo (LargeInt.parse "17".data) (LargeInt.parse "5".data) =
        none ↔ (LargeInt.parse "5".data).is_zero = true :=
  c6_divide_none_iff_zero _ _ (by decide) (by decide)

/-- C7: `factorial` fails (`none`, modelling the panic) on every well-formed
negative BigInt, returns one on zero, and on every positive input returns
the reduced product of the BigInt sequence `1, ..., n` — whose value is the
mathematical factorial of `n`'s numeric value; concretely,
`factorial(parse("5"))` formats to `"120"`. (The source first converts `n`
to a machine-sized count; the embedding uses the exact numeric value, which
coincides for every representable `n` as the claim assumes.) -/
theorem c7_factorial_spec :
    (∀ n : LargeInt, ValidRep n →
      (n.sign = -1 → factorial n = none) ∧
      (n.is_zero = true → factorial n = some LargeInt.one) ∧
      (n.sign = 1 → n.is_zero = false →
        ∃ f, factorial n = some f ∧
          value f = (Nat.factorial (digitsVal n.digits) : Int))) ∧
    (factorial (LargeInt.parse "5".data)).map LargeInt.to_string =
      some "120".data := by
  constructor
  · intro n hv
    refine ⟨?_, ?_, ?_⟩
    · intro hneg
      have hz : n.is_zero = false := by
        cases h : n.is_zero
        · rfl
        · exfalso
          rw [is_zero_iff] at h
          have hs1 := hv.2.2.2.2 h
          rw [hs1] at hneg
          norm_num at hneg
      rw [factorial, hz]
      simp only [Bool.false_eq_true, if_false, ite_false]
      rw [if_pos hneg]
    · intro hz
      rw [factorial, hz]
      simp
    · intro hs hz
      rw [factorial, hz]
      simp only [Bool.false_eq_true, if_false, ite_false]
      rw [if_neg (by rw [hs]; norm_num)]
      exact ⟨_, rfl, factorial_fold _⟩
  · decide

/-- C7 (witness): the factorial specification at `n = parse("5")`. -/
theorem c7_factorial_witness :
    ValidRep (LargeInt.parse "5".data) ∧
      ∃ f, factorial (LargeInt.parse "5".data) = some f ∧
        value f = (Nat.factorial (digitsVal (LargeInt.parse "5".data).digits) : Int) :=
  ⟨by decide, (c7_factorial_spec.1 _ (by decide)).2.2 (by decide) (by decide)⟩

/-- C8: for every well-formed BigInt `x`, `exponentiate(x, 0)` returns one
and `exponentiate(x, 1)` returns `x`. -/
theorem c8_exponent_zero_and_one (x : LargeInt) (h : ValidRep x) :
    exponentiate x LargeInt.zero = some LargeInt.one ∧
      exponentiate x LargeInt.one = some x :=
  ⟨rfl, exponentiate_one_exponent x h⟩

/-- C8 (witness): the exponent laws at `x = parse("7")`. -/
theorem c8_exponent_zero_and_one_witness :
    exponentiate (LargeInt.parse "7".data) LargeInt.zero = some LargeInt.one ∧
      exponentiate (LargeInt.parse "7".data) LargeInt.one =
        some (LargeInt.parse "7".data) :=
  c8_exponent_zero_and_one _ (by decide)

/-- C9: for every well-formed BigInt `a` and well-formed nonzero `b`, the
remainder returned by `divide_and_modulo(a, b)` always carries positive
sign — regardless of the operand signs — and its magnitude is strictly
smaller than the magnitude of `b`. -/
theorem c9_remainder_sign_and_bound (a b : LargeInt) (ha : ValidRep a)
    (hb : ValidRep b) (hbz : b.is_zero = false) :
    ∃ q r, divide_and_modulo a b = some (q, r) ∧ r.sign = 1 ∧
      digitsVal r.digits < digitsVal b.digits := by
  obtain ⟨q, r, hdiv, _, hrlt, hrs, _⟩ := divide_spec a b ha hb hbz
  exact ⟨q, r, hdiv, hrs, hrlt⟩

/-- C9 (witness): the remainder properties at `a = -17`, `b = 5` (a negative
dividend, where the remainder is still positively signed). -/
theorem c9_remainder_sign_and_bound_witness :
    ∃ q r, divide_and_modulo (LargeInt.parse "-17".data)
        (LargeInt.parse "5".data) = some (q, r) ∧ r.sign = 1 ∧
      digitsVal r.digits < digitsVal (LargeInt.parse "5".data).digits :=
  c9_remainder_sign_and_bound _ _ (by decide) (by decide) (by decide)

/-- C10: `exponentiate` never fails on a well-formed negative exponent: it
returns exactly the result for the exponent's magnitude — the exponent sign
is silently ignored. -/
theorem c10_negative_exponent_ignored (base e : LargeInt) (hv : ValidRep e)
    (_hneg : e.sign = -1) :
    exponentiate base e = exponentiate base (magnitude e) ∧
      (exponentiate base e).isSome = true :=
  ⟨exponentiate_digits_congr base e (magnitude e) rfl,
   exponentiate_isSome base e hv⟩

/-- C10 (witness): `exponentiate(3, -2)` equals `exponentiate(3, 2)` and
succeeds. -/
theorem c10_negative_exponent_ignored_witness :
    exponentiate (LargeInt.parse "3".data) ⟨-1, [2]⟩ =
        exponentiate (LargeInt.parse "3".data) (magnitude ⟨-1, [2]⟩) ∧
      (exponentiate (LargeInt.parse "3".data) ⟨-1, [2]⟩).isSome = true :=
  c10_negative_exponent_ignored _ _ (by decide) (by decide)

-- Sanity checks against the repository's own concrete scenarios.
example : ((LargeInt.parse "123".data).add (LargeInt.parse "456".data)).to_string
    = "579".data := by decide
example : ((LargeInt.parse "456".data).subtract (LargeInt.parse "123".data)).to_string
    = "333".data := by decide
example : (multiply (LargeInt.parse "999".data) (LargeInt.parse "999".data)).to_string
    = "998001".data := by decide
example : divide_and_modulo (LargeInt.parse "17".data) (LargeInt.parse "5".data)
    = some (LargeInt.new 1 [3], LargeInt.new 1 [2]) := by decide
example : (factorial (LargeInt.parse "5".data)).map LargeInt.to_string
    = some "120".data := by decide
example : (exponentiate (LargeInt.parse "2".data) (LargeInt.parse "10".data)).map
    LargeInt.to_string = some "1024".data := by decide
